import Mathlib

/-!
Verification of the text-aggregation and summarization core
(`summarizer.py`, `summarization_service.py`, `aggregator.py`).
Strings are modelled as lists of characters; the Python helpers are
translated into structurally recursive Lean functions so that all
definitions compute.
-/

namespace AppDevSignal

/-- A Python string, modelled as a list of characters. -/
abbrev Str := List Char

/-- Embed a Lean string literal as a character list. -/
def ofStr (s : String) : Str := s.data

/-- The whitespace characters recognised by Python `str.split` / `str.strip`
(ASCII subset). -/
def isSpace (c : Char) : Bool :=
  c = ' ' || c = '\t' || c = '\n' || c = '\r' || c = '\x0b' || c = '\x0c'

/-- Sentence-terminal punctuation used by the segmenter regex `[.!?]`. -/
def isTerm (c : Char) : Bool := c = '.' || c = '!' || c = '?'

/-- Prepend a character to the first piece of a piece list (used by the
splitting functions to build the current piece). -/
def consHead (c : Char) : List Str → List Str
  | [] => [[c]]
  | s :: rest => (c :: s) :: rest

/-- Split at every single whitespace character (raw form of Python
`str.split()`; the empty pieces are dropped afterwards). -/
def rawSplitWS : Str → List Str
  | [] => [[]]
  | c :: cs => if isSpace c then [] :: rawSplitWS cs else consHead c (rawSplitWS cs)

/-- Python `str.split()` with no argument: split on whitespace runs and
drop empty pieces. -/
def pySplitWS (s : Str) : List Str := (rawSplitWS s).filter (fun p => decide (p ≠ []))

/-- Remove trailing whitespace. -/
def dropTrail (s : Str) : Str := (s.reverse.dropWhile isSpace).reverse

/-- Python `str.strip()`: remove leading and trailing whitespace. -/
def pyStrip (s : Str) : Str := dropTrail (s.dropWhile isSpace)

/-- Python `sep.join(pieces)`. -/
def joinSep (sep : Str) : List Str → Str
  | [] => []
  | [s] => s
  | s :: rest => s ++ sep ++ joinSep sep rest

/-- `' '.join(text.strip().split())`: collapse all whitespace runs to single
spaces and trim (first line of `_split_sentences`). -/
def cleanText (t : Str) : Str := joinSep [' '] (pySplitWS (pyStrip t))

/-- `re.split(r'(?<=[.!?])\s+', s)`: split after terminal punctuation
followed by whitespace, consuming the whitespace run.  The `Bool` flag
records whether the scanner is currently consuming the whitespace run that
follows a split point. -/
def splitTermGo : Bool → Str → List Str
  | _, [] => [[]]
  | skip, c :: cs =>
    if skip && isSpace c then splitTermGo true cs
    else if isTerm c then
      match cs with
      | [] => [[c]]
      | d :: ds =>
        if isSpace d then [c] :: splitTermGo true ds
        else consHead c (splitTermGo false (d :: ds))
    else consHead c (splitTermGo false cs)

/-- `_split_sentences`: normalise whitespace, split at terminal punctuation
followed by whitespace, drop empty fragments. -/
def split_sentences (t : Str) : List Str :=
  (splitTermGo false (cleanText t)).filter (fun p => decide (p ≠ []))

/-- `summarize_general`: first `max_sentences` sentences, or the stripped
input when it has at most `max_sentences` sentences. -/
def summarize_general (t : Str) (max_sentences : Nat) : Str :=
  let sentences := split_sentences t
  if sentences.length ≤ max_sentences then pyStrip t
  else joinSep [' '] (sentences.take max_sentences)

/-- The line-break characters recognised by Python `str.splitlines`. -/
def isLineBreak (c : Char) : Bool :=
  c = '\n' || c = '\r' || c = '\x0b' || c = '\x0c' ||
  c = '\x1c' || c = '\x1d' || c = '\x1e' || c = '\x85' || c = '\u2028' || c = '\u2029'

/-- Python `str.splitlines()`: split on line breaks (treating `\r\n` as one
break), with no trailing empty line. -/
def pySplitlines : Str → List Str
  | [] => []
  | '\r' :: '\n' :: ds => [] :: pySplitlines ds
  | c :: cs =>
    if isLineBreak c then [] :: pySplitlines cs
    else consHead c (pySplitlines cs)

/-- Python `str.lower()` (character-wise). -/
def pyLower (s : Str) : Str := s.map Char.toLower

/-- `startsWithB needle hay`: `hay` starts with `needle`. -/
def startsWithB : Str → Str → Bool
  | [], _ => true
  | _ :: _, [] => false
  | x :: xs, y :: ys => x = y && startsWithB xs ys

/-- `containsB hay needle`: Python `needle in hay` (substring containment). -/
def containsB : Str → Str → Bool
  | [], needle => startsWithB needle []
  | c :: rest, needle => startsWithB needle (c :: rest) || containsB rest needle

/-- The fixed action-keyword list of `summarize_email`. -/
def action_keywords : List Str :=
  [ofStr "todo", ofStr "to do", ofStr "action", ofStr "deadline", ofStr "due",
   ofStr "请办理", ofStr "待办"]

/-- A line is actionable when its lowercase form contains some keyword. -/
def lineMatches (line : Str) : Bool :=
  action_keywords.any (fun kw => containsB (pyLower line) kw)

/-- `summarize_email`: overview plus a bulleted block of the actionable
lines (trimmed, non-empty, in original order). -/
def summarize_email (t : Str) (max_sentences : Nat) : Str :=
  let overview := summarize_general t max_sentences
  let actions := (((pySplitlines t).filter lineMatches).map pyStrip).filter
    (fun s => decide (s ≠ []))
  if actions = [] then overview
  else overview ++ ofStr "\n\nAction items:\n" ++
    joinSep ['\n'] (actions.map (fun a => ofStr "- " ++ a))

/-- `re.split(r'\n\x7b2,\x7d', s)`: split on maximal runs of two or more
newline characters.  The flag records whether the scanner is consuming the
remainder of such a run. -/
def splitParaGo : Bool → Str → List Str
  | _, [] => [[]]
  | skip, c :: cs =>
    if skip && c = '\n' then splitParaGo true cs
    else if c = '\n' then
      match cs with
      | d :: ds =>
        if d = '\n' then [] :: splitParaGo true ds
        else consHead c (splitParaGo false (d :: ds))
      | [] => [[c]]
    else consHead c (splitParaGo false cs)

/-- `summarize_report`: split into sections on blank lines, drop empty
sections, summarise each with a `Section N:` heading, join with blank
lines. -/
def summarize_report (t : Str) (max_sentences_per_section : Nat) : Str :=
  let sections := ((splitParaGo false t).map pyStrip).filter (fun s => decide (s ≠ []))
  let summaries := sections.enum.map (fun p =>
    ofStr "Section " ++ ofStr (Nat.repr (p.1 + 1)) ++ ofStr ": " ++
    summarize_general p.2 max_sentences_per_section)
  joinSep (ofStr "\n\n") summaries

example : ofStr "ab" = ['a', 'b'] := rfl

example : split_sentences (ofStr "  Hello  world. How are\nyou? Fine") =
    [ofStr "Hello world.", ofStr "How are you?", ofStr "Fine"] := by decide

example : split_sentences (ofStr "") = [] := by decide

example : summarize_general (ofStr " Hi there. ") 3 = ofStr "Hi there." := by decide

example : summarize_general (ofStr "A. B. C.") 2 = ofStr "A. B." := by decide

example : pySplitlines (ofStr "a\r\nb\nc\n") = [ofStr "a", ofStr "b", ofStr "c"] := by decide

example : summarize_email (ofStr "Meeting at 3pm.\nTODO: send report by Friday.\nSee you there.") 2 =
    ofStr "Meeting at 3pm. TODO: send report by Friday.\n\nAction items:\n- TODO: send report by Friday." := by
  decide

example : summarize_report (ofStr "Intro sentence.\n\nBody one. Body two.\n\nEnd.") 2 =
    ofStr "Section 1: Intro sentence.\n\nSection 2: Body one. Body two.\n\nSection 3: End." := by
  decide

example : summarize_report (ofStr " \n \n\n ") 2 = [] := by decide

/-!  The unified summarization service (`summarization_service.py`). -/

/-- The observable outcome of invoking a backend capability: it either
raises, or returns an optional string (Python `Optional[str]`). -/
inductive CallResult where
  | raisesErr : CallResult
  | returns : Option Str → CallResult

/-- A backend registry: the environment of `getattr(self, "_summarise_with_" + backend)`
lookups, mapping a backend identifier to its capability when one exists. -/
def BackendEnv : Type := Str → Option (Str → Str → CallResult)

/-- `Summarizer._backend_dispatch`: missing or non-callable capability gives
`None`; a raising call is suppressed to `None`; otherwise the call's result
is passed through. -/
def backendDispatch (env : BackendEnv) (backend content ctype : Str) : Option Str :=
  match env backend with
  | none => none
  | some m =>
    match m content ctype with
    | .raisesErr => none
    | .returns r => r

/-- The heuristic fallback block of `Summarizer.summarise` (lines 89-95):
dispatch on the normalised content type. -/
def heuristicFallback (content ctype : Str) : Str :=
  if ctype = ofStr "news" then summarize_general content 3
  else if ctype = ofStr "email" then summarize_email content 2
  else if ctype = ofStr "report" then summarize_report content 2
  else summarize_general content 3

/-- `(content_type or "general").lower().strip()`. -/
def normCType (ct : Str) : Str :=
  pyStrip (pyLower (if ct = [] then ofStr "general" else ct))

/-- `Summarizer.summarise`: attempt the backend when one is supplied (a
truthy string), use its result when truthy, otherwise fall back to the
heuristic for the content type. -/
def summarise (env : BackendEnv) (content : Str) (content_type : Str)
    (backend : Option Str) : Str :=
  let ctype := normCType content_type
  let attempt : Option Str :=
    match backend with
    | some b => if b ≠ [] then backendDispatch env (pyStrip (pyLower b)) content ctype else none
    | none => none
  match attempt with
  | some s => if s ≠ [] then s else heuristicFallback content ctype
  | none => heuristicFallback content ctype

/-!  The aggregator (`aggregator.py`). -/

/-- A JSON value as loaded by `json.load` (the shapes the aggregator
inspects). -/
inductive PyVal where
  | pyBool : Bool → PyVal
  | pyStr : Str → PyVal
  | pyInt : Int → PyVal
  | pyList : List PyVal → PyVal
  | pyNone : PyVal

/-- Python truthiness (`bool(value)`) for the modelled JSON values. -/
def PyVal.truthy : PyVal → Bool
  | .pyBool b => b
  | .pyStr s => !s.isEmpty
  | .pyInt n => n != 0
  | .pyList l => !l.isEmpty
  | .pyNone => false

/-- A Python dict with string keys, as an insertion-ordered association
list. -/
abbrev Dict (α : Type) := List (Str × α)

/-- Python dict lookup (`d.get(key)`). -/
def dictFind {α : Type} : Dict α → Str → Option α
  | [], _ => none
  | (k, v) :: rest, key => if k = key then some v else dictFind rest key

/-- Python dict assignment (`d[key] = v`): replace in place, else append. -/
def dictSet {α : Type} : Dict α → Str → α → Dict α
  | [], key, v => [(key, v)]
  | (k, w) :: rest, key, v =>
    if k = key then (k, v) :: rest else (k, w) :: dictSet rest key v

/-- Key normalisation of `_load_config`: lowercase every key, later
duplicates overwriting earlier ones. -/
def normaliseConfig (d : Dict PyVal) : Dict PyVal :=
  d.foldl (fun acc kv => dictSet acc (pyLower kv.1) kv.2) []

/-- What the configuration file read can observe: the file is missing, its
content is malformed JSON, or it parses to a JSON object. -/
inductive ConfigSource where
  | missing : ConfigSource
  | malformed : ConfigSource
  | valid : Dict PyVal → ConfigSource

/-- The built-in default configuration used when the file is missing. -/
def defaultConfigData : Dict PyVal :=
  [(ofStr "news", .pyBool true), (ofStr "email", .pyBool true),
   (ofStr "report", .pyBool true), (ofStr "rss_feeds", .pyList [])]

/-- The `ValueError` message raised on malformed configuration content. -/
def configErrorMsg : Str := ofStr "Invalid JSON in configuration file"

/-- `Aggregator._load_config`: default on a missing file, error on
malformed content, otherwise the key-normalised parsed object. -/
def loadConfig : ConfigSource → Except Str (Dict PyVal)
  | .missing => .ok (normaliseConfig defaultConfigData)
  | .malformed => .error configErrorMsg
  | .valid d => .ok (normaliseConfig d)

/-- `bool(config.get(key, dflt))`. -/
def cfgGetB (config : Dict PyVal) (key : Str) (dflt : Bool) : Bool :=
  match dictFind config key with
  | some v => v.truthy
  | none => dflt

/-- A remote feed entry with its `title` and `summary` attributes (absent
attributes already defaulted to the empty string). -/
structure FeedEntry where
  title : Str
  summary : Str

/-- Render one entry as `f"\x7btitle\x7d \x7bsummary\x7d"`. -/
def renderEntry (e : FeedEntry) : Str := e.title ++ [' '] ++ e.summary

/-- The feed loop of `collect`: for each URL take at most the first five
entries of a successful fetch, rendering each; a fetch that raises
contributes nothing. -/
def fetchArticles (fetch : PyVal → Option (List FeedEntry)) : List PyVal → List Str
  | [] => []
  | u :: us =>
    (match fetch u with
     | none => []
     | some entries => (entries.take 5).map renderEntry) ++ fetchArticles fetch us

/-- `config.get("rss_feeds", []) if isinstance(config.get("rss_feeds"), list) else []`. -/
def rssFeedsOf (config : Dict PyVal) : List PyVal :=
  match dictFind config (ofStr "rss_feeds") with
  | some (.pyList l) => l
  | _ => []

/-- `Aggregator.collect`, with the sample reader, feedparser availability
and feed fetcher as explicit collaborators. -/
def collect (config : Dict PyVal) (readSample : Str → Str) (feedAvail : Bool)
    (fetch : PyVal → Option (List FeedEntry)) : Dict Str :=
  let r1 := if cfgGetB config (ofStr "news") true then
    dictSet [] (ofStr "news") (readSample (ofStr "news_sample.txt")) else []
  let r2 := if cfgGetB config (ofStr "email") true then
    dictSet r1 (ofStr "email") (readSample (ofStr "email_sample.txt")) else r1
  let r3 := if cfgGetB config (ofStr "report") true then
    dictSet r2 (ofStr "report") (readSample (ofStr "report_sample.txt")) else r2
  let rss := rssFeedsOf config
  let r4 :=
    if (!rss.isEmpty) && feedAvail then
      let articles := fetchArticles fetch rss
      if articles ≠ [] then
        let combined := joinSep (ofStr "\n\n") articles
        match dictFind r3 (ofStr "news") with
        | some old => dictSet r3 (ofStr "news") (combined ++ ofStr "\n\n" ++ old)
        | none => dictSet r3 (ofStr "news") combined
      else r3
    else r3
  let r5 := if cfgGetB config (ofStr "factiva") false then
    dictSet r4 (ofStr "factiva") [] else r4
  let r6 := if cfgGetB config (ofStr "euromonitor") false then
    dictSet r5 (ofStr "euromonitor") [] else r5
  let r7 := if cfgGetB config (ofStr "financial") false then
    dictSet r6 (ofStr "financial") [] else r6
  r7

/-- `Aggregator.collect` including the `_load_config` call, so that a
configuration error propagates to the caller. -/
def collectE (src : ConfigSource) (readSample : Str → Str) (feedAvail : Bool)
    (fetch : PyVal → Option (List FeedEntry)) : Except Str (Dict Str) :=
  (loadConfig src).map (fun cfg => collect cfg readSample feedAvail fetch)

/-- Whether the raw text contains a terminal punctuation mark immediately
followed by a whitespace character. -/
def hasTermSpace : Str → Bool
  | a :: b :: rest => (isTerm a && isSpace b) || hasTermSpace (b :: rest)
  | _ => false

/-!  Helper lemmas shared by the claim theorems. -/

/-- The heuristic dispatch collapses to three cases, since the `news`
branch and the default branch both call the general summary with three
sentences. -/
lemma heuristicFallback_eq (content c : Str) :
    heuristicFallback content c =
      if c = ofStr "email" then summarize_email content 2
      else if c = ofStr "report" then summarize_report content 2
      else summarize_general content 3 := by
  unfold heuristicFallback
  by_cases h1 : c = ofStr "news"
  · subst h1
    rw [if_pos rfl, if_neg (by decide : ¬(ofStr "news" = ofStr "email")),
      if_neg (by decide : ¬(ofStr "news" = ofStr "report"))]
  · rw [if_neg h1]

/-!  Claim C8. -/

/-- The configuration of claim C8. -/
def cfgC8 : Dict PyVal :=
  normaliseConfig [(ofStr "news", .pyBool false), (ofStr "email", .pyBool true),
    (ofStr "report", .pyBool true)]

/-- C8: with configuration mapping news to false and email and report to
true (no feed list, no provider keys), `collect` returns a mapping whose
key list is exactly `[email, report]`; no `news` key is present. -/
theorem claim_C8 (readSample : Str → Str) (feedAvail : Bool)
    (fetch : PyVal → Option (List FeedEntry)) :
    (collect cfgC8 readSample feedAvail fetch).map Prod.fst =
      [ofStr "email", ofStr "report"] := rfl

/-!  Claim C3. -/

/-- C3: loading a malformed configuration fails with the configuration
error, and the error propagates through `collect` to the caller; a missing
configuration file yields the built-in default — news, email and report
enabled and an empty feed list — without any error. -/
theorem claim_C3 :
    (∀ readSample feedAvail fetch,
      collectE .malformed readSample feedAvail fetch = .error configErrorMsg) ∧
    (∃ cfg, loadConfig .missing = .ok cfg ∧
      cfgGetB cfg (ofStr "news") false = true ∧
      cfgGetB cfg (ofStr "email") false = true ∧
      cfgGetB cfg (ofStr "report") false = true ∧
      rssFeedsOf cfg = []) := by
  refine ⟨fun _ _ _ => rfl, ⟨normaliseConfig defaultConfigData, rfl, ?_, ?_, ?_, ?_⟩⟩
  · decide
  · decide
  · decide
  · rfl

/-!  Claim C2. -/

/-- C2: when a backend identifier is supplied whose capability is absent,
raises on invocation, or returns an empty or missing result, `summarise`
returns exactly the heuristic fallback output for the content and content
type (and, being a total function, never raises). -/
theorem claim_C2 (env : BackendEnv) (content ctype b : Str)
    (h : env (pyStrip (pyLower b)) = none ∨
      ∃ m, env (pyStrip (pyLower b)) = some m ∧
        (m content (normCType ctype) = .raisesErr ∨
         m content (normCType ctype) = .returns none ∨
         m content (normCType ctype) = .returns (some []))) :
    summarise env content ctype (some b) = heuristicFallback content (normCType ctype) := by
  by_cases hb : b = []
  · simp [summarise, hb]
  · rcases h with h | ⟨m, hm, hr | hr | hr⟩
    · simp [summarise, backendDispatch, hb, h]
    · simp [summarise, backendDispatch, hb, hm, hr]
    · simp [summarise, backendDispatch, hb, hm, hr]
    · simp [summarise, backendDispatch, hb, hm, hr]

/-- Witness for C2 at a backend that raises on every call. -/
theorem claim_C2_witness :
    summarise (fun _ => some (fun _ _ => .raisesErr)) (ofStr "Hello. World.")
      (ofStr "news") (some (ofStr "openai")) =
      heuristicFallback (ofStr "Hello. World.") (normCType (ofStr "news")) :=
  claim_C2 (fun _ => some (fun _ _ => .raisesErr)) (ofStr "Hello. World.")
    (ofStr "news") (ofStr "openai") (Or.inr ⟨_, rfl, Or.inl rfl⟩)

/-!  Claim C5. -/

/-- C5: `summarise` without a backend (or after a backend miss) dispatches
on the normalised content type with the fixed default counts — email to
the email summary with two sentences, report to the report summary with
two sentences per section, and everything else (news, general, any
unrecognised value) to the general summary with three sentences. -/
theorem claim_C5 (env : BackendEnv) (content ct : Str) :
    (summarise env content ct none =
      (if normCType ct = ofStr "email" then summarize_email content 2
       else if normCType ct = ofStr "report" then summarize_report content 2
       else summarize_general content 3)) ∧
    (∀ b, (backendDispatch env (pyStrip (pyLower b)) content (normCType ct) = none ∨
           backendDispatch env (pyStrip (pyLower b)) content (normCType ct) = some []) →
      summarise env content ct (some b) =
      (if normCType ct = ofStr "email" then summarize_email content 2
       else if normCType ct = ofStr "report" then summarize_report content 2
       else summarize_general content 3)) := by
  constructor
  · rw [← heuristicFallback_eq]
    rfl
  · intro b hmiss
    rw [← heuristicFallback_eq]
    by_cases hb : b = []
    · simp [summarise, hb]
    · rcases hmiss with h | h <;> simp [summarise, hb, h]

/-- Witness for C5: a placeholder backend that always misses falls back by
content type. -/
theorem claim_C5_witness :
    summarise (fun _ => none) (ofStr "A. B.") (ofStr " Email") (some (ofStr "deepseek")) =
      (if normCType (ofStr " Email") = ofStr "email" then summarize_email (ofStr "A. B.") 2
       else if normCType (ofStr " Email") = ofStr "report" then summarize_report (ofStr "A. B.") 2
       else summarize_general (ofStr "A. B.") 3) :=
  (claim_C5 (fun _ => none) (ofStr "A. B.") (ofStr " Email")).2 (ofStr "deepseek") (Or.inl rfl)

/-!  Claim C10. -/

/-- Characters of the pieces of `consHead c L` come from `c` or the
pieces of `L`. -/
lemma consHead_chars (c : Char) (L : List Str) (t : Str)
    (hL : ∀ p ∈ L, ∀ x ∈ p, x ∈ t) :
    ∀ p ∈ consHead c L, ∀ x ∈ p, x ∈ c :: t := by
  cases L with
  | nil =>
    intro p hp x hx
    simp [consHead] at hp
    subst hp
    simp at hx
    subst hx
    exact List.mem_cons_self _ _
  | cons q rest =>
    intro p hp x hx
    simp only [consHead] at hp
    rcases List.mem_cons.mp hp with rfl | hp'
    · rcases List.mem_cons.mp hx with rfl | hx'
      · exact List.mem_cons_self _ _
      · exact List.mem_cons_of_mem _ (hL q (List.mem_cons_self _ _) x hx')
    · exact List.mem_cons_of_mem _ (hL p (List.mem_cons_of_mem _ hp') x hx)

/-- Every character of every section piece comes from the input text. -/
lemma splitParaGo_chars (skip : Bool) (t : Str) :
    ∀ p ∈ splitParaGo skip t, ∀ c ∈ p, c ∈ t := by
  induction skip, t using splitParaGo.induct with
  | case1 x =>
    intro p hp c hc
    rw [splitParaGo.eq_1] at hp
    simp at hp
    subst hp
    simp at hc
  | case2 skip c cs hcond ih =>
    intro p hp c' hc'
    cases cs with
    | nil =>
      rw [splitParaGo.eq_3, if_pos hcond, splitParaGo.eq_1] at hp
      simp at hp
      subst hp
      simp at hc'
    | cons d ds =>
      rw [splitParaGo.eq_2, if_pos hcond] at hp
      exact List.mem_cons_of_mem _ (ih p hp c' hc')
  | case3 skip ds hcond ih =>
    intro p hp c' hc'
    rw [splitParaGo.eq_2, if_neg hcond, if_pos rfl, if_pos rfl] at hp
    rcases List.mem_cons.mp hp with rfl | hp'
    · simp at hc'
    · exact List.mem_cons_of_mem _ (List.mem_cons_of_mem _ (ih p hp' c' hc'))
  | case4 skip d ds hne hcond ih =>
    intro p hp c' hc'
    rw [splitParaGo.eq_2, if_neg hcond, if_pos rfl, if_neg hne] at hp
    exact consHead_chars '\n' _ (d :: ds) ih p hp c' hc'
  | case5 skip hcond =>
    intro p hp c' hc'
    rw [splitParaGo.eq_3, if_neg hcond, if_pos rfl] at hp
    simp at hp
    subst hp
    simpa using hc'
  | case6 skip c cs hcond hne ih =>
    intro p hp c' hc'
    cases cs with
    | nil =>
      rw [splitParaGo.eq_3, if_neg hcond, if_neg hne] at hp
      exact consHead_chars c _ [] ih p hp c' hc'
    | cons d ds =>
      rw [splitParaGo.eq_2, if_neg hcond, if_neg hne] at hp
      exact consHead_chars c _ (d :: ds) ih p hp c' hc'

/-- A list of whitespace characters strips to the empty list. -/
lemma pyStrip_eq_nil_of_space (p : Str) (h : ∀ c ∈ p, isSpace c = true) :
    pyStrip p = [] := by
  unfold pyStrip
  rw [List.dropWhile_eq_nil_iff.mpr h]
  rfl

/-- C10: for every whitespace-only input (including the empty string) and
every per-section sentence count, `summarize_report` returns the empty
string: all candidate sections strip to empty and are discarded, so no
section label is emitted. -/
theorem claim_C10 (t : Str) (k : Nat) (h : ∀ c ∈ t, isSpace c = true) :
    summarize_report t k = [] := by
  have hs : (((splitParaGo false t).map pyStrip).filter (fun s => decide (s ≠ []))) = [] := by
    rw [List.filter_eq_nil_iff]
    intro a ha
    rw [List.mem_map] at ha
    obtain ⟨p, hp, rfl⟩ := ha
    have : pyStrip p = [] :=
      pyStrip_eq_nil_of_space p (fun c hc => h c (splitParaGo_chars false t p hp c hc))
    simp [this]
  simp only [summarize_report, hs]
  rfl

/-- Witness for C10 on a concrete whitespace-only input. -/
theorem claim_C10_witness : summarize_report (ofStr " \t\n\n  ") 2 = [] :=
  claim_C10 (ofStr " \t\n\n  ") 2 (by decide)

/-!  Claim C9. -/

/-- Characters of a matched needle occur in its haystack. -/
lemma startsWithB_sub : ∀ needle hay : Str, startsWithB needle hay = true →
    ∀ c ∈ needle, c ∈ hay := by
  intro needle
  induction needle with
  | nil =>
    intro hay _ c hc
    simp at hc
  | cons x xs ih =>
    intro hay h c hc
    cases hay with
    | nil => simp [startsWithB] at h
    | cons y ys =>
      simp only [startsWithB, Bool.and_eq_true, decide_eq_true_eq] at h
      obtain ⟨hxy, hrest⟩ := h
      rcases List.mem_cons.mp hc with rfl | hc'
      · rw [hxy]
        exact List.mem_cons_self _ _
      · exact List.mem_cons_of_mem _ (ih ys hrest c hc')

/-- Substring containment implies character containment. -/
lemma containsB_sub : ∀ hay needle : Str, containsB hay needle = true →
    ∀ c ∈ needle, c ∈ hay := by
  intro hay
  induction hay with
  | nil =>
    intro needle h c hc
    cases needle with
    | nil => simp at hc
    | cons x xs => simp [containsB, startsWithB] at h
  | cons y ys ih =>
    intro needle h c hc
    simp only [containsB, Bool.or_eq_true] at h
    rcases h with h | h
    · exact startsWithB_sub needle (y :: ys) h c hc
    · exact List.mem_cons_of_mem _ (ih needle h c hc)

/-- Lowercasing leaves whitespace characters unchanged. -/
lemma toLower_space (c : Char) (h : isSpace c = true) : Char.toLower c = c := by
  simp only [isSpace, Bool.or_eq_true, decide_eq_true_eq] at h
  rcases h with ((((rfl | rfl) | rfl) | rfl) | rfl) | rfl <;> decide

/-- If a list strips to empty, all its characters are whitespace. -/
lemma space_of_pyStrip_eq_nil (l : Str) (h : pyStrip l = []) :
    ∀ c ∈ l, isSpace c = true := by
  unfold pyStrip dropTrail at h
  rw [List.reverse_eq_nil_iff, List.dropWhile_eq_nil_iff] at h
  intro c hc
  have hsplit := List.takeWhile_append_dropWhile isSpace l
  rw [← hsplit] at hc
  rcases List.mem_append.mp hc with hc' | hc'
  · exact List.mem_takeWhile_imp hc'
  · exact h c (List.mem_reverse.mpr hc')

/-- An actionable line strips to a non-empty string: each keyword contains
a non-whitespace character, whose preimage under lowercasing is
non-whitespace. -/
lemma lineMatches_strip_ne (l : Str) (h : lineMatches l = true) : pyStrip l ≠ [] := by
  unfold lineMatches at h
  rw [List.any_eq_true] at h
  obtain ⟨kw, hkw, hc⟩ := h
  obtain ⟨c0, hc0mem, hc0⟩ :=
    (by decide : ∀ kw ∈ action_keywords, ∃ c ∈ kw, isSpace c = false) kw hkw
  have hcl : c0 ∈ pyLower l := containsB_sub _ _ hc c0 hc0mem
  rw [pyLower, List.mem_map] at hcl
  obtain ⟨c1, hc1mem, hc1low⟩ := hcl
  intro hnil
  have hsp : isSpace c1 = true := space_of_pyStrip_eq_nil l hnil c1 hc1mem
  rw [toLower_space c1 hsp] at hc1low
  subst hc1low
  simp [hsp] at hc0

/-- The lines of the input whose lowercase form contains an action
keyword, in original order. -/
def matchedLines (t : Str) : List Str := (pySplitlines t).filter lineMatches

/-- C9: `summarize_email` returns the overview alone when no line matches
an action keyword; otherwise the overview, the literal separator, and the
matched lines in original order, each trimmed and bulleted.  On the
spec's example the action block is exactly one bulleted TODO line. -/
theorem claim_C9 :
    (∀ t k, summarize_email t k =
      (if matchedLines t = [] then summarize_general t k
       else summarize_general t k ++ ofStr "\n\nAction items:\n" ++
         joinSep ['\n'] ((matchedLines t).map (fun a => ofStr "- " ++ pyStrip a)))) ∧
    summarize_email (ofStr "Meeting at 3pm.\nTODO: send report by Friday.\nSee you there.") 2 =
      summarize_general (ofStr "Meeting at 3pm.\nTODO: send report by Friday.\nSee you there.") 2 ++
      ofStr "\n\nAction items:\n" ++ ofStr "- TODO: send report by Friday." := by
  constructor
  · intro t k
    have hfix : (((pySplitlines t).filter lineMatches).map pyStrip).filter
        (fun s => decide (s ≠ [])) = ((pySplitlines t).filter lineMatches).map pyStrip := by
      rw [List.filter_eq_self]
      intro a ha
      rw [List.mem_map] at ha
      obtain ⟨l, hl, rfl⟩ := ha
      have hm : lineMatches l = true := List.of_mem_filter hl
      simpa using lineMatches_strip_ne l hm
    by_cases hnil : (pySplitlines t).filter lineMatches = []
    · simp [summarize_email, matchedLines, hfix, hnil]
    · simp only [summarize_email, matchedLines, hfix, List.map_eq_nil_iff, hnil,
        if_false, ite_false, List.map_map]
      rfl
  · decide

/-!  Claim C1. -/

/-- The stripped string occurs contiguously inside the original: only
leading and trailing characters are removed, the interior is intact. -/
lemma pyStrip_isInfix (t : Str) : pyStrip t <:+: t := by
  obtain ⟨u, hu⟩ := List.dropWhile_suffix (l := t) isSpace
  obtain ⟨w, hw⟩ := List.dropWhile_suffix (l := (t.dropWhile isSpace).reverse) isSpace
  refine ⟨u, w.reverse, ?_⟩
  have h2 : pyStrip t ++ w.reverse = t.dropWhile isSpace := by
    have h3 := congrArg List.reverse hw
    rw [List.reverse_append, List.reverse_reverse] at h3
    exact h3
  rw [List.append_assoc, h2, hu]

/-- Counterexample to C1 as stated: a short text with leading and trailing
whitespace is not returned verbatim — the result is stripped. -/
theorem claim_C1_counterexample :
    (split_sentences (ofStr " Hi there. ")).length ≤ 3 ∧
    summarize_general (ofStr " Hi there. ") 3 ≠ ofStr " Hi there. " := by decide

/-- C1 (amended): when the segmented sentence count is at most
`max_sentences`, `summarize_general` returns the input with leading and
trailing whitespace stripped — a contiguous piece of the original, so the
internal whitespace is verbatim — not the unmodified original; when the
count is larger it returns the first `max_sentences` segmented sentences
joined with single spaces. -/
theorem claim_C1_amended (t : Str) (k : Nat) :
    ((split_sentences t).length ≤ k →
      summarize_general t k = pyStrip t ∧ pyStrip t <:+: t) ∧
    (k < (split_sentences t).length →
      summarize_general t k = joinSep [' '] ((split_sentences t).take k)) := by
  constructor
  · intro hle
    refine ⟨?_, pyStrip_isInfix t⟩
    simp [summarize_general, hle]
  · intro hlt
    simp [summarize_general, Nat.not_le.mpr hlt]

/-- Witness for C1 (amended) in both regimes. -/
theorem claim_C1_witness :
    (summarize_general (ofStr " a b. ") 3 = pyStrip (ofStr " a b. ") ∧
      pyStrip (ofStr " a b. ") <:+: ofStr " a b. ") ∧
    summarize_general (ofStr "A. B. C.") 1 =
      joinSep [' '] ((split_sentences (ofStr "A. B. C.")).take 1) :=
  ⟨(claim_C1_amended (ofStr " a b. ") 3).1 (by decide),
   (claim_C1_amended (ofStr "A. B. C.") 1).2 (by decide)⟩

/-!  Claim C4. -/

/-- Looking up the key just assigned yields the assigned value. -/
lemma dictFind_dictSet_self {α : Type} (d : Dict α) (k : Str) (v : α) :
    dictFind (dictSet d k v) k = some v := by
  induction d with
  | nil => simp [dictSet, dictFind]
  | cons kv rest ih =>
    obtain ⟨k', w⟩ := kv
    by_cases h : k' = k
    · simp [dictSet, dictFind, h]
    · simp [dictSet, dictFind, h, ih]

/-- Assigning one key leaves lookups of a different key unchanged. -/
lemma dictFind_dictSet_ne {α : Type} (d : Dict α) (k key : Str) (v : α)
    (h : k ≠ key) : dictFind (dictSet d k v) key = dictFind d key := by
  induction d with
  | nil => simp [dictSet, dictFind, h]
  | cons kv rest ih =>
    obtain ⟨k', w⟩ := kv
    by_cases h' : k' = k
    · subst h'
      simp [dictSet, dictFind, h]
    · simp [dictSet, dictFind, h', ih]

/-- Configuration with one feed URL whose fetch always fails. -/
def cfgC4bad : Dict PyVal := normaliseConfig [(ofStr "rss_feeds", .pyList [.pyStr (ofStr "u")])]

/-- Counterexample to C4 as stated: with a non-empty feed list, the feed
capability available, but every fetch failing, no entry is collected, so
`collect` leaves the local news text untouched instead of prepending the
(empty) combined block with a blank-line separator as the claim demands. -/
theorem claim_C4_counterexample :
    dictFind (collect cfgC4bad (fun _ => ofStr "local") true (fun _ => none)) (ofStr "news") =
      some (ofStr "local") ∧
    ofStr "local" ≠
      joinSep (ofStr "\n\n") (fetchArticles (fun _ => none) (rssFeedsOf cfgC4bad)) ++
        ofStr "\n\n" ++ ofStr "local" := by
  constructor
  · rfl
  · decide

/-- C4 (amended): when the feed capability is available and at least one
entry is collected from the configured feeds (at most the first five per
successfully fetched feed, rendered `title`-space-`summary`, in feed order
then entry order, failing URLs contributing nothing), the combined block —
entries joined by blank lines — is prepended to the existing local news
text separated by a blank line when the news source is enabled, and
becomes the value of a newly created news key when it is disabled. -/
theorem claim_C4_amended (config : Dict PyVal) (readSample : Str → Str)
    (fetch : PyVal → Option (List FeedEntry))
    (hart : fetchArticles fetch (rssFeedsOf config) ≠ []) :
    (cfgGetB config (ofStr "news") true = true →
      dictFind (collect config readSample true fetch) (ofStr "news") =
        some (joinSep (ofStr "\n\n") (fetchArticles fetch (rssFeedsOf config)) ++
          ofStr "\n\n" ++ readSample (ofStr "news_sample.txt"))) ∧
    (cfgGetB config (ofStr "news") true = false →
      dictFind (collect config readSample true fetch) (ofStr "news") =
        some (joinSep (ofStr "\n\n") (fetchArticles fetch (rssFeedsOf config)))) := by
  have hrss : rssFeedsOf config ≠ [] := by
    intro h0
    rw [h0] at hart
    exact hart rfl
  have hb : ((!(rssFeedsOf config).isEmpty) && true) = true := by
    cases h' : rssFeedsOf config with
    | nil => exact absurd h' hrss
    | cons x xs => rfl
  have hemail : ofStr "email" ≠ ofStr "news" := by decide
  have hreport : ofStr "report" ≠ ofStr "news" := by decide
  have hfact : ofStr "factiva" ≠ ofStr "news" := by decide
  have heuro : ofStr "euromonitor" ≠ ofStr "news" := by decide
  have hfin : ofStr "financial" ≠ ofStr "news" := by decide
  constructor <;> intro hnews <;>
    simp only [collect, hnews, hb, hart, hemail, hreport, hfact, heuro, hfin,
      if_true, if_false, ite_true, ite_false,
      apply_ite (fun d => dictFind d (ofStr "news")),
      dictFind_dictSet_self, dictFind_dictSet_ne _ _ _ _ hemail,
      dictFind_dictSet_ne _ _ _ _ hreport, dictFind_dictSet_ne _ _ _ _ hfact,
      dictFind_dictSet_ne _ _ _ _ heuro, dictFind_dictSet_ne _ _ _ _ hfin,
      ite_self, ne_eq, ite_not, dictFind]

/-- Feed configurations and fetcher for the C4 witness. -/
def cfgC4a : Dict PyVal :=
  normaliseConfig [(ofStr "rss_feeds", .pyList [.pyStr (ofStr "bad"), .pyStr (ofStr "good")])]

/-- Configuration with the news source disabled but feeds enabled. -/
def cfgC4b : Dict PyVal :=
  normaliseConfig [(ofStr "news", .pyBool false),
    (ofStr "rss_feeds", .pyList [.pyStr (ofStr "bad"), .pyStr (ofStr "good")])]

/-- A fetcher that fails on the bad URL and returns two entries on the
good one. -/
def fetchC4 : PyVal → Option (List FeedEntry) :=
  fun u =>
    match u with
    | .pyStr s =>
      if s = ofStr "good" then
        some [⟨ofStr "T1", ofStr "S1"⟩, ⟨ofStr "T2", ofStr "S2"⟩]
      else none
    | _ => none

/-- Witness for C4 (amended): one failing and one succeeding feed, with
the news source enabled and disabled. -/
theorem claim_C4_witness :
    dictFind (collect cfgC4a (fun _ => ofStr "local news") true fetchC4) (ofStr "news") =
      some (joinSep (ofStr "\n\n") (fetchArticles fetchC4 (rssFeedsOf cfgC4a)) ++
        ofStr "\n\n" ++ (fun _ : Str => ofStr "local news") (ofStr "news_sample.txt")) ∧
    dictFind (collect cfgC4b (fun _ => ofStr "local news") true fetchC4) (ofStr "news") =
      some (joinSep (ofStr "\n\n") (fetchArticles fetchC4 (rssFeedsOf cfgC4b))) :=
  ⟨(claim_C4_amended cfgC4a (fun _ => ofStr "local news") fetchC4 (by decide)).1 (by decide),
   (claim_C4_amended cfgC4b (fun _ => ofStr "local news") fetchC4 (by decide)).2 (by decide)⟩

/-!  Claim C6. -/

/-- Whether the first character, if any, is whitespace. -/
def headSpace : Str → Bool
  | [] => false
  | c :: _ => isSpace c

/-- Unfolding of `hasTermSpace` one character at a time. -/
lemma hasTermSpace_cons (x : Char) (t : Str) :
    hasTermSpace (x :: t) = ((isTerm x && headSpace t) || hasTermSpace t) := by
  cases t <;> simp [hasTermSpace, headSpace]

/-- Splitting the absence of the terminal-whitespace pattern at the head. -/
lemma hasTermSpace_cons_false {x : Char} {t : Str} (h : hasTermSpace (x :: t) = false) :
    (isTerm x && headSpace t) = false ∧ hasTermSpace t = false := by
  rw [hasTermSpace_cons] at h
  exact ⟨by simpa using congrArg (fun b => b) h |> fun h' => (Bool.or_eq_false_iff.mp h').1,
    (Bool.or_eq_false_iff.mp h).2⟩

/-- The head of an append is the head of a non-empty left part. -/
lemma headSpace_append (u v : Str) (h : u ≠ []) : headSpace (u ++ v) = headSpace u := by
  cases u with
  | nil => exact absurd rfl h
  | cons c cs => rfl

/-- The pattern is absent from a left part of an append. -/
lemma hasTermSpace_append_left : ∀ u v : Str, hasTermSpace (u ++ v) = false →
    hasTermSpace u = false := by
  intro u
  induction u with
  | nil => intro v _; rfl
  | cons x u' ih =>
    intro v h
    rw [List.cons_append] at h
    obtain ⟨h1, h2⟩ := hasTermSpace_cons_false h
    rw [hasTermSpace_cons, Bool.or_eq_false_iff]
    refine ⟨?_, ih v h2⟩
    cases hu : u' with
    | nil => simp [headSpace]
    | cons a b =>
      rw [hu] at h1
      rwa [headSpace_append (a :: b) v (by simp)] at h1

/-- The pattern is absent from a right part of an append. -/
lemma hasTermSpace_append_right : ∀ u v : Str, hasTermSpace (u ++ v) = false →
    hasTermSpace v = false := by
  intro u
  induction u with
  | nil => intro v h; exact h
  | cons x u' ih =>
    intro v h
    rw [List.cons_append] at h
    exact ih v (hasTermSpace_cons_false h).2

/-- The pattern is absent from any contiguous part of a pattern-free
string. -/
lemma hasTermSpace_within {s t : Str} (hsub : s <:+: t) (h : hasTermSpace t = false) :
    hasTermSpace s = false := by
  obtain ⟨u, v, huv⟩ := hsub
  have h' : hasTermSpace (s ++ v) = false :=
    hasTermSpace_append_right u (s ++ v) (by rw [← List.append_assoc, huv]; exact h)
  exact hasTermSpace_append_left s v h'

/-- The raw whitespace split always produces at least one piece. -/
lemma rawSplitWS_ne_nil (s : Str) : rawSplitWS s ≠ [] := by
  induction s with
  | nil => simp [rawSplitWS]
  | cons c cs ih =>
    by_cases h : isSpace c = true
    · simp [rawSplitWS, h]
    · simp only [rawSplitWS, h, Bool.false_eq_true, if_false, ite_false]
      cases hL : rawSplitWS cs with
      | nil => exact absurd hL ih
      | cons p r => simp [consHead]

/-- `consHead` preserves a character predicate satisfied by the new head
and by all piece characters. -/
lemma consHead_pred (P : Char → Prop) (c : Char) (L : List Str) (hc : P c)
    (hL : ∀ p ∈ L, ∀ x ∈ p, P x) : ∀ p ∈ consHead c L, ∀ x ∈ p, P x := by
  cases L with
  | nil =>
    intro p hp x hx
    simp [consHead] at hp
    subst hp
    simp at hx
    subst hx
    exact hc
  | cons q rest =>
    intro p hp x hx
    simp only [consHead] at hp
    rcases List.mem_cons.mp hp with rfl | hp'
    · rcases List.mem_cons.mp hx with rfl | hx'
      · exact hc
      · exact hL q (List.mem_cons_self _ _) x hx'
    · exact hL p (List.mem_cons_of_mem _ hp') x hx

/-- Every character of every raw whitespace-split piece is non-whitespace. -/
lemma rawSplitWS_chars (s : Str) : ∀ p ∈ rawSplitWS s, ∀ c ∈ p, isSpace c = false := by
  induction s with
  | nil =>
    intro p hp c hc
    simp [rawSplitWS] at hp
    subst hp
    simp at hc
  | cons c cs ih =>
    by_cases h : isSpace c = true
    · intro p hp x hx
      simp only [rawSplitWS, h, if_true, ite_true] at hp
      rcases List.mem_cons.mp hp with rfl | hp'
      · simp at hx
      · exact ih p hp' x hx
    · intro p hp x hx
      simp only [rawSplitWS, h, Bool.false_eq_true, if_false, ite_false] at hp
      exact consHead_pred (fun a => isSpace a = false) c _
        (by simpa using h) ih p hp x hx

/-- A raw split starting with an empty piece means the input starts with
whitespace (or is empty). -/
lemma rawSplitWS_nil_head : ∀ (cs : Str) (rest : List Str),
    rawSplitWS cs = [] :: rest → cs = [] ∨ headSpace cs = true := by
  intro cs rest h
  cases cs with
  | nil => exact Or.inl rfl
  | cons d ds =>
    by_cases hd : isSpace d = true
    · exact Or.inr (by simpa [headSpace] using hd)
    · exfalso
      simp only [rawSplitWS, hd, Bool.false_eq_true, if_false, ite_false] at h
      cases hL : rawSplitWS ds with
      | nil => exact rawSplitWS_ne_nil ds hL
      | cons p r =>
        rw [hL] at h
        simp [consHead] at h

/-- Collapsing whitespace runs to single spaces introduces no new
terminal-punctuation-before-whitespace pattern. -/
lemma splitWS_preserves : ∀ s : Str, hasTermSpace s = false →
    hasTermSpace (joinSep [' '] (pySplitWS s)) = false := by
  intro s
  induction s with
  | nil => intro h; rfl
  | cons c cs ih =>
    intro h
    obtain ⟨h1, h2⟩ := hasTermSpace_cons_false h
    by_cases hc : isSpace c = true
    · have e : pySplitWS (c :: cs) = pySplitWS cs := by
        unfold pySplitWS
        simp only [rawSplitWS, hc, if_true, ite_true]
        rw [List.filter_cons]
        simp
      rw [e]
      exact ih h2
    · cases hL : rawSplitWS cs with
      | nil => exact absurd hL (rawSplitWS_ne_nil cs)
      | cons p r =>
        have hsplit : pySplitWS (c :: cs) =
            (c :: p) :: r.filter (fun q => decide (q ≠ [])) := by
          unfold pySplitWS
          simp only [rawSplitWS, hc, Bool.false_eq_true, if_false, ite_false, hL]
          simp [consHead, List.filter_cons]
        by_cases hp : p = []
        · subst hp
          have hcs := rawSplitWS_nil_head cs r hL
          have e2 : pySplitWS cs = r.filter (fun q => decide (q ≠ [])) := by
            unfold pySplitWS
            rw [hL, List.filter_cons]
            simp
          cases hr : r.filter (fun q => decide (q ≠ [])) with
          | nil =>
            rw [hsplit, hr]
            rfl
          | cons q rq =>
            have hterm_c : isTerm c = false := by
              rcases hcs with rfl | hhs
              · exfalso
                have : ([[]] : List Str) = [] :: r := hL
                have hrnil : r = [] := by
                  injection this with _ h'
                  exact h'.symm
                rw [hrnil] at hr
                simp at hr
              · rw [hhs, Bool.and_true] at h1
                exact h1
            rw [hsplit, hr]
            rw [show joinSep [' '] ([c] :: q :: rq) = c :: ' ' :: joinSep [' '] (q :: rq) from rfl]
            rw [hasTermSpace_cons, hasTermSpace_cons, hterm_c]
            have htail := ih h2
            rw [e2, hr] at htail
            simp [htail, isTerm]
        · have hkeep : pySplitWS cs = p :: r.filter (fun q => decide (q ≠ [])) := by
            unfold pySplitWS
            rw [hL, List.filter_cons]
            simp [hp]
          have hjoin : joinSep [' '] ((c :: p) :: r.filter (fun q => decide (q ≠ []))) =
              c :: joinSep [' '] (p :: r.filter (fun q => decide (q ≠ []))) := by
            cases r.filter (fun q => decide (q ≠ [])) with
            | nil => rfl
            | cons a b => simp [joinSep]
          rw [hsplit, hjoin, ← hkeep, hasTermSpace_cons, Bool.or_eq_false_iff]
          have htail := ih h2
          refine ⟨?_, htail⟩
          have hhead : headSpace (joinSep [' '] (pySplitWS cs)) = false := by
            rw [hkeep]
            have hps : headSpace p = false := by
              cases p with
              | nil => exact absurd rfl hp
              | cons a q =>
                have := rawSplitWS_chars cs (a :: q)
                  (by rw [hL]; exact List.mem_cons_self _ _) a (List.mem_cons_self _ _)
                simpa [headSpace] using this
            cases r.filter (fun q => decide (q ≠ [])) with
            | nil => exact hps
            | cons a b =>
              rw [show joinSep [' '] (p :: a :: b) = (p ++ [' ']) ++ joinSep [' '] (a :: b)
                from rfl]
              rw [headSpace_append _ _ (by simp [hp]), headSpace_append _ _ hp]
              exact hps
          rw [hhead, Bool.and_false]

/-- A pattern-free string is not split by the sentence regex. -/
lemma splitTermGo_no_split : ∀ s : Str, hasTermSpace s = false →
    splitTermGo false s = [s] := by
  intro s
  induction s with
  | nil => intro h; rfl
  | cons c cs ih =>
    intro h
    obtain ⟨h1, h2⟩ := hasTermSpace_cons_false h
    cases cs with
    | nil =>
      rw [splitTermGo.eq_2]
      by_cases ht : isTerm c = true
      · simp [ht]
      · simp [ht, splitTermGo, consHead]
    | cons d ds =>
      rw [splitTermGo.eq_3]
      simp only [Bool.false_and, Bool.false_eq_true, if_false, ite_false]
      by_cases ht : isTerm c = true
      · have hd : isSpace d = false := by
          rw [ht, Bool.true_and] at h1
          simpa [headSpace] using h1
        rw [if_pos ht, if_neg (by simp [hd]), ih h2]
        rfl
      · rw [if_neg ht, ih h2]
        rfl

/-- A non-whitespace character survives `dropWhile isSpace`. -/
lemma mem_dropWhile_of_not (p : Char → Bool) (l : Str) (c : Char) (hc : c ∈ l)
    (hns : p c = false) : c ∈ l.dropWhile p := by
  have hsplit := List.takeWhile_append_dropWhile p l
  rw [← hsplit] at hc
  rcases List.mem_append.mp hc with h' | h'
  · exact absurd (List.mem_takeWhile_imp h') (by simp [hns])
  · exact h'

/-- A non-whitespace character survives stripping. -/
lemma mem_pyStrip (l : Str) (c : Char) (hc : c ∈ l) (hns : isSpace c = false) :
    c ∈ pyStrip l := by
  unfold pyStrip dropTrail
  rw [List.mem_reverse]
  apply mem_dropWhile_of_not _ _ _ _ hns
  rw [List.mem_reverse]
  exact mem_dropWhile_of_not _ _ _ hc hns

/-- If every raw piece is empty, the whole string is whitespace. -/
lemma rawSplitWS_all_nil : ∀ s : Str, (∀ p ∈ rawSplitWS s, p = []) →
    ∀ c ∈ s, isSpace c = true := by
  intro s
  induction s with
  | nil => intro _ c hc; simp at hc
  | cons c cs ih =>
    intro h
    by_cases hc : isSpace c = true
    · intro x hx
      rcases List.mem_cons.mp hx with rfl | hx'
      · exact hc
      · refine ih ?_ x hx'
        intro p hp
        apply h
        simp only [rawSplitWS, hc, if_true, ite_true]
        exact List.mem_cons_of_mem _ hp
    · exfalso
      cases hL : rawSplitWS cs with
      | nil => exact rawSplitWS_ne_nil cs hL
      | cons p r =>
        have hmem : (c :: p) ∈ rawSplitWS (c :: cs) := by
          simp only [rawSplitWS, hc, Bool.false_eq_true, if_false, ite_false, hL, consHead]
          exact List.mem_cons_self _ _
        exact List.cons_ne_nil c p (h _ hmem)

/-- A string containing a non-whitespace character has a non-empty
whitespace split. -/
lemma pySplitWS_ne_nil_of_nonspace (s : Str) (c : Char) (hc : c ∈ s)
    (hns : isSpace c = false) : pySplitWS s ≠ [] := by
  intro h0
  unfold pySplitWS at h0
  rw [List.filter_eq_nil_iff] at h0
  have hall : ∀ p ∈ rawSplitWS s, p = [] := by
    intro p hp
    have := h0 p hp
    simpa using this
  have := rawSplitWS_all_nil s hall c hc
  rw [this] at hns
  simp at hns

/-- A join whose first piece is non-empty is non-empty. -/
lemma joinSep_first_ne (sep : Str) (p : Str) (X : List Str) (hp : p ≠ []) :
    joinSep sep (p :: X) ≠ [] := by
  cases X with
  | nil => exact hp
  | cons a b => simp [joinSep, hp]

/-- The normalised text of a string with a non-whitespace character is
non-empty. -/
lemma cleanText_ne_nil (t : Str) (h : ∃ c ∈ t, isSpace c = false) : cleanText t ≠ [] := by
  obtain ⟨c, hc, hns⟩ := h
  have hc' : c ∈ pyStrip t := mem_pyStrip t c hc hns
  unfold cleanText
  cases hX : pySplitWS (pyStrip t) with
  | nil => exact absurd hX (pySplitWS_ne_nil_of_nonspace _ c hc' hns)
  | cons p r =>
    apply joinSep_first_ne
    have hmem : p ∈ pySplitWS (pyStrip t) := by
      rw [hX]
      exact List.mem_cons_self _ _
    unfold pySplitWS at hmem
    have := List.of_mem_filter hmem
    simpa using this

/-- Counterexample to C6 as stated: a whitespace-only text contains no
terminal punctuation followed by whitespace, yet the segmenter returns
zero sentences, not one. -/
theorem claim_C6_counterexample :
    hasTermSpace (ofStr " ") = false ∧ split_sentences (ofStr " ") = [] := by decide

/-- C6 (amended): for every input text containing at least one
non-whitespace character and no terminal punctuation mark immediately
followed by whitespace, the segmenter returns exactly one sentence, equal
to the whole whitespace-normalised text; a whitespace-only or empty text
instead yields zero sentences. -/
theorem claim_C6_amended (t : Str) (hno : hasTermSpace t = false)
    (hne : ∃ c ∈ t, isSpace c = false) :
    split_sentences t = [cleanText t] := by
  have h1 : hasTermSpace (cleanText t) = false := by
    unfold cleanText
    exact splitWS_preserves _ (hasTermSpace_within (pyStrip_isInfix t) hno)
  have h2 : cleanText t ≠ [] := cleanText_ne_nil t hne
  unfold split_sentences
  rw [splitTermGo_no_split _ h1]
  simp [h2]

/-- Witness for C6 (amended) on a concrete punctuation-free text. -/
theorem claim_C6_witness :
    split_sentences (ofStr "no terminal punctuation\nhere at all") =
      [cleanText (ofStr "no terminal punctuation\nhere at all")] :=
  claim_C6_amended (ofStr "no terminal punctuation\nhere at all") (by decide) (by decide)

/-!  Claim C7. -/

/-- The first character, if any, is not whitespace. -/
def headOk (s : Str) : Prop := ∀ c, s.head? = some c → isSpace c = false

/-- The final character, if any, is not whitespace. -/
def lastOk (s : Str) : Prop := ∀ c, s.getLast? = some c → isSpace c = false

lemma headOk_nil : headOk [] := fun c h => by simp at h

lemma lastOk_nil : lastOk [] := fun c h => by simp at h

lemma headOk_cons_of (c : Char) (q : Str) (hc : isSpace c = false) : headOk (c :: q) := by
  intro x hx
  rw [List.head?_cons] at hx
  injection hx with h
  rw [← h]
  exact hc

/-- Terminal punctuation is not whitespace. -/
lemma isTerm_not_space (c : Char) (h : isTerm c = true) : isSpace c = false := by
  simp only [isTerm, Bool.or_eq_true, decide_eq_true_eq] at h
  rcases h with (rfl | rfl) | rfl <;> decide

/-- The last element of an option-valued query belongs to the list. -/
lemma mem_of_getLast?_eq (l : Str) (a : Char) (h : l.getLast? = some a) : a ∈ l := by
  obtain ⟨hne, heq⟩ := List.mem_getLast?_eq_getLast
    (show a ∈ l.getLast? from by simp [Option.mem_def, h])
  rw [heq]
  exact List.getLast_mem hne

/-- A string with non-whitespace edges is already stripped. -/
lemma pyStrip_eq_self (s : Str) (h1 : headOk s) (h2 : lastOk s) : pyStrip s = s := by
  unfold pyStrip dropTrail
  have e1 : s.dropWhile isSpace = s := by
    cases s with
    | nil => rfl
    | cons c cs =>
      rw [List.dropWhile_cons, h1 c rfl]
      simp
  rw [e1]
  have e2 : s.reverse.dropWhile isSpace = s.reverse := by
    cases hs : s.reverse with
    | nil => rfl
    | cons c cs =>
      rw [List.dropWhile_cons]
      have hlast : s.getLast? = some c := by
        rw [← List.head?_reverse, hs]
        rfl
      rw [h2 c hlast]
      simp
  rw [e2, List.reverse_reverse]

/-- Dropping the head preserves a non-whitespace final character. -/
lemma lastOk_tail {x : Char} {t : Str} (h : lastOk (x :: t)) : lastOk t := by
  cases t with
  | nil => exact lastOk_nil
  | cons a b =>
    intro c hc
    apply h
    rw [List.getLast?_cons_cons]
    exact hc

/-- The sentence splitter always produces at least one piece. -/
lemma splitTermGo_ne_nil : ∀ (skip : Bool) (s : Str), splitTermGo skip s ≠ [] := by
  intro skip s
  induction s generalizing skip with
  | nil => simp [splitTermGo]
  | cons c cs ih =>
    cases cs with
    | nil =>
      rw [splitTermGo.eq_2]
      by_cases h1 : (skip && isSpace c) = true
      · rw [if_pos h1]
        simp [splitTermGo]
      · rw [if_neg h1]
        by_cases ht : isTerm c = true
        · simp [ht]
        · simp [ht, splitTermGo, consHead]
    | cons d ds =>
      rw [splitTermGo.eq_3]
      by_cases h1 : (skip && isSpace c) = true
      · rw [if_pos h1]
        exact ih true
      · rw [if_neg h1]
        by_cases ht : isTerm c = true
        · rw [if_pos ht]
          by_cases hd : isSpace d = true
          · simp [hd]
          · rw [if_neg hd]
            cases hL : splitTermGo false (d :: ds) <;> simp [consHead]
        · rw [if_neg ht]
          cases hL : splitTermGo false (d :: ds) <;> simp [consHead]

/-- In non-skip mode the first piece starts with the first character. -/
lemma splitTermGo_false_cons (c : Char) (cs : Str) :
    ∃ q rest, splitTermGo false (c :: cs) = (c :: q) :: rest := by
  cases cs with
  | nil =>
    rw [splitTermGo.eq_2]
    simp only [Bool.false_and, Bool.false_eq_true, if_false, ite_false]
    by_cases ht : isTerm c = true
    · exact ⟨[], [], by rw [if_pos ht]⟩
    · exact ⟨[], [], by rw [if_neg ht]; rfl⟩
  | cons d ds =>
    rw [splitTermGo.eq_3]
    simp only [Bool.false_and, Bool.false_eq_true, if_false, ite_false]
    obtain ⟨p, r, hL⟩ : ∃ p r, splitTermGo false (d :: ds) = p :: r := by
      cases hL : splitTermGo false (d :: ds) with
      | nil => exact absurd hL (splitTermGo_ne_nil false (d :: ds))
      | cons p r => exact ⟨p, r, rfl⟩
    by_cases ht : isTerm c = true
    · by_cases hd : isSpace d = true
      · exact ⟨[], _, by rw [if_pos ht, if_pos hd]⟩
      · exact ⟨p, r, by rw [if_pos ht, if_neg hd, hL]; rfl⟩
    · exact ⟨p, r, by rw [if_neg ht, hL]; rfl⟩

/-- Every piece after the first (in non-skip mode), and every piece of a
skip-mode split, starts with a non-whitespace character when non-empty:
pieces born at a split point start right after the consumed whitespace
run. -/
lemma splitTermGo_heads : ∀ (n : Nat) (s : Str), s.length ≤ n →
    (∀ p ∈ (splitTermGo false s).tail, p ≠ [] → headOk p) ∧
    (∀ p ∈ splitTermGo true s, p ≠ [] → headOk p) := by
  intro n
  induction n with
  | zero =>
    intro s hs
    have hsnil : s = [] := List.eq_nil_of_length_eq_zero (Nat.le_zero.mp hs)
    subst hsnil
    constructor
    · intro p hp
      simp [splitTermGo] at hp
    · intro p hp hne
      simp [splitTermGo] at hp
      exact absurd hp hne
  | succ n ih =>
    intro s hs
    cases s with
    | nil =>
      constructor
      · intro p hp
        simp [splitTermGo] at hp
      · intro p hp hne
        simp [splitTermGo] at hp
        exact absurd hp hne
    | cons c cs =>
      constructor
      · intro p hp hne
        cases cs with
        | nil =>
          rw [splitTermGo.eq_2] at hp
          simp only [Bool.false_and, Bool.false_eq_true, if_false, ite_false] at hp
          by_cases ht : isTerm c = true
          · rw [if_pos ht] at hp
            simp at hp
          · rw [if_neg ht] at hp
            simp [splitTermGo, consHead] at hp
        | cons d ds =>
          have hlen1 : (d :: ds).length ≤ n := by
            simp only [List.length_cons] at hs ⊢
            omega
          have hlen2 : ds.length ≤ n := by
            simp only [List.length_cons] at hs
            omega
          rw [splitTermGo.eq_3] at hp
          simp only [Bool.false_and, Bool.false_eq_true, if_false, ite_false] at hp
          obtain ⟨q, r, hL⟩ := splitTermGo_false_cons d ds
          by_cases ht : isTerm c = true
          · by_cases hd : isSpace d = true
            · rw [if_pos ht, if_pos hd, List.tail_cons] at hp
              exact (ih ds hlen2).2 p hp hne
            · rw [if_pos ht, if_neg hd, hL] at hp
              simp only [consHead, List.tail_cons] at hp
              refine (ih (d :: ds) hlen1).1 p ?_ hne
              rw [hL, List.tail_cons]
              exact hp
          · rw [if_neg ht, hL] at hp
            simp only [consHead, List.tail_cons] at hp
            refine (ih (d :: ds) hlen1).1 p ?_ hne
            rw [hL, List.tail_cons]
            exact hp
      · intro p hp hne
        by_cases h1 : isSpace c = true
        · cases cs with
          | nil =>
            rw [splitTermGo.eq_2, if_pos (by simp [h1])] at hp
            simp [splitTermGo] at hp
            exact absurd hp hne
          | cons d ds =>
            have hlen1 : (d :: ds).length ≤ n := by
              simp only [List.length_cons] at hs ⊢
              omega
            rw [splitTermGo.eq_3, if_pos (by simp [h1])] at hp
            exact (ih (d :: ds) hlen1).2 p hp hne
        · have h1f : isSpace c = false := by simpa using h1
          cases cs with
          | nil =>
            rw [splitTermGo.eq_2, if_neg (by simp [h1f])] at hp
            by_cases ht : isTerm c = true
            · rw [if_pos ht] at hp
              simp at hp
              subst hp
              exact headOk_cons_of c [] h1f
            · rw [if_neg ht] at hp
              simp [splitTermGo, consHead] at hp
              subst hp
              exact headOk_cons_of c [] h1f
          | cons d ds =>
            have hlen1 : (d :: ds).length ≤ n := by
              simp only [List.length_cons] at hs ⊢
              omega
            have hlen2 : ds.length ≤ n := by
              simp only [List.length_cons] at hs
              omega
            rw [splitTermGo.eq_3, if_neg (by simp [h1f])] at hp
            obtain ⟨q, r, hL⟩ := splitTermGo_false_cons d ds
            by_cases ht : isTerm c = true
            · by_cases hd : isSpace d = true
              · rw [if_pos ht, if_pos hd] at hp
                rcases List.mem_cons.mp hp with rfl | hp'
                · exact headOk_cons_of c [] h1f
                · exact (ih ds hlen2).2 p hp' hne
              · rw [if_pos ht, if_neg hd, hL] at hp
                simp only [consHead] at hp
                rcases List.mem_cons.mp hp with rfl | hp'
                · exact headOk_cons_of c _ h1f
                · refine (ih (d :: ds) hlen1).1 p ?_ hne
                  rw [hL, List.tail_cons]
                  exact hp'
            · rw [if_neg ht, hL] at hp
              simp only [consHead] at hp
              rcases List.mem_cons.mp hp with rfl | hp'
              · exact headOk_cons_of c _ h1f
              · refine (ih (d :: ds) hlen1).1 p ?_ hne
                rw [hL, List.tail_cons]
                exact hp'

/-- Every non-empty piece ends with a non-whitespace character when the
input does: pieces end either at terminal punctuation or at the input's
final character. -/
lemma splitTermGo_lasts : ∀ (n : Nat) (s : Str), s.length ≤ n → ∀ (skip : Bool),
    lastOk s → ∀ p ∈ splitTermGo skip s, p ≠ [] → lastOk p := by
  intro n
  induction n with
  | zero =>
    intro s hs skip hlast p hp hne
    have hsnil : s = [] := List.eq_nil_of_length_eq_zero (Nat.le_zero.mp hs)
    subst hsnil
    simp [splitTermGo] at hp
    exact absurd hp hne
  | succ n ih =>
    intro s hs skip hlast p hp hne
    cases s with
    | nil =>
      simp [splitTermGo] at hp
      exact absurd hp hne
    | cons c cs =>
      by_cases h1 : (skip && isSpace c) = true
      · cases cs with
        | nil =>
          rw [splitTermGo.eq_2, if_pos h1] at hp
          simp [splitTermGo] at hp
          exact absurd hp hne
        | cons d ds =>
          have hlen1 : (d :: ds).length ≤ n := by
            simp only [List.length_cons] at hs ⊢
            omega
          rw [splitTermGo.eq_3, if_pos h1] at hp
          exact ih (d :: ds) hlen1 true (lastOk_tail hlast) p hp hne
      · cases cs with
        | nil =>
          rw [splitTermGo.eq_2, if_neg h1] at hp
          by_cases ht : isTerm c = true
          · rw [if_pos ht] at hp
            simp at hp
            subst hp
            exact hlast
          · rw [if_neg ht] at hp
            simp [splitTermGo, consHead] at hp
            subst hp
            exact hlast
        | cons d ds =>
          have hlen1 : (d :: ds).length ≤ n := by
            simp only [List.length_cons] at hs ⊢
            omega
          have hlen2 : ds.length ≤ n := by
            simp only [List.length_cons] at hs
            omega
          rw [splitTermGo.eq_3, if_neg h1] at hp
          obtain ⟨q, r, hL⟩ := splitTermGo_false_cons d ds
          by_cases ht : isTerm c = true
          · by_cases hd : isSpace d = true
            · rw [if_pos ht, if_pos hd] at hp
              rcases List.mem_cons.mp hp with rfl | hp'
              · intro x hx
                rw [show ([c] : Str).getLast? = some c from rfl] at hx
                injection hx with hxx
                rw [← hxx]
                exact isTerm_not_space c ht
              · exact ih ds hlen2 true (lastOk_tail (lastOk_tail hlast)) p hp' hne
            · rw [if_pos ht, if_neg hd, hL] at hp
              simp only [consHead] at hp
              rcases List.mem_cons.mp hp with rfl | hp'
              · have hdq : lastOk (d :: q) :=
                  ih (d :: ds) hlen1 false (lastOk_tail hlast) (d :: q)
                    (by rw [hL]; exact List.mem_cons_self _ _) (by simp)
                intro x hx
                rw [List.getLast?_cons_cons] at hx
                exact hdq x hx
              · exact ih (d :: ds) hlen1 false (lastOk_tail hlast) p
                  (by rw [hL]; exact List.mem_cons_of_mem _ hp') hne
          · rw [if_neg ht, hL] at hp
            simp only [consHead] at hp
            rcases List.mem_cons.mp hp with rfl | hp'
            · have hdq : lastOk (d :: q) :=
                ih (d :: ds) hlen1 false (lastOk_tail hlast) (d :: q)
                  (by rw [hL]; exact List.mem_cons_self _ _) (by simp)
              intro x hx
              rw [List.getLast?_cons_cons] at hx
              exact hdq x hx
            · exact ih (d :: ds) hlen1 false (lastOk_tail hlast) p
                (by rw [hL]; exact List.mem_cons_of_mem _ hp') hne

/-- Joining non-empty pieces with single spaces keeps non-whitespace
edges. -/
lemma joinSep_edges : ∀ (X : List Str), (∀ p ∈ X, p ≠ []) → (∀ p ∈ X, headOk p) →
    (∀ p ∈ X, lastOk p) → headOk (joinSep [' '] X) ∧ lastOk (joinSep [' '] X) := by
  intro X
  induction X with
  | nil => intro _ _ _; exact ⟨headOk_nil, lastOk_nil⟩
  | cons p X ih =>
    intro hne hh hl
    cases X with
    | nil =>
      exact ⟨hh p (List.mem_cons_self _ _), hl p (List.mem_cons_self _ _)⟩
    | cons a b =>
      obtain ⟨ihh, ihl⟩ := ih
        (fun q hq => hne q (List.mem_cons_of_mem _ hq))
        (fun q hq => hh q (List.mem_cons_of_mem _ hq))
        (fun q hq => hl q (List.mem_cons_of_mem _ hq))
      have hJne : joinSep [' '] (a :: b) ≠ [] :=
        joinSep_first_ne [' '] a b (hne a (List.mem_cons_of_mem _ (List.mem_cons_self _ _)))
      constructor
      · cases hpc : p with
        | nil => exact absurd hpc (hne p (List.mem_cons_self _ _))
        | cons c q =>
          intro x hx
          rw [show joinSep [' '] ((c :: q) :: a :: b) =
            c :: (q ++ [' '] ++ joinSep [' '] (a :: b)) from rfl] at hx
          rw [List.head?_cons] at hx
          injection hx with hxx
          rw [← hxx]
          have := hh p (List.mem_cons_self _ _)
          rw [hpc] at this
          exact this c rfl
      · intro x hx
        rw [show joinSep [' '] (p :: a :: b) =
          (p ++ [' ']) ++ joinSep [' '] (a :: b) from rfl] at hx
        rw [List.getLast?_append_of_ne_nil _ hJne] at hx
        exact ihl x hx

/-- The normalised text has non-whitespace edges. -/
lemma cleanText_edges (t : Str) : headOk (cleanText t) ∧ lastOk (cleanText t) := by
  unfold cleanText
  apply joinSep_edges
  · intro q hq
    have := List.of_mem_filter hq
    simpa using this
  · intro q hq
    cases q with
    | nil => exact headOk_nil
    | cons y ys =>
      intro x hx
      rw [List.head?_cons] at hx
      injection hx with hxx
      rw [← hxx]
      exact rawSplitWS_chars _ _ (List.mem_of_mem_filter hq) _ (List.mem_cons_self _ _)
  · intro q hq x hx
    exact rawSplitWS_chars _ _ (List.mem_of_mem_filter hq) x (mem_of_getLast?_eq q x hx)

/-- Every segmented sentence is non-empty with non-whitespace edges. -/
lemma sentences_edges (t : Str) : ∀ p ∈ split_sentences t, p ≠ [] ∧ headOk p ∧ lastOk p := by
  intro p hp
  unfold split_sentences at hp
  have hpne : p ≠ [] := by simpa using List.of_mem_filter hp
  have hpin : p ∈ splitTermGo false (cleanText t) := List.mem_of_mem_filter hp
  refine ⟨hpne, ?_⟩
  cases hct : cleanText t with
  | nil =>
    rw [hct] at hpin
    simp [splitTermGo] at hpin
    exact absurd hpin hpne
  | cons c cs =>
    have hedges := cleanText_edges t
    rw [hct] at hedges hpin
    obtain ⟨q, rest, hsp⟩ := splitTermGo_false_cons c cs
    rw [hsp] at hpin
    rcases List.mem_cons.mp hpin with rfl | hp'
    · refine ⟨headOk_cons_of c q (hedges.1 c rfl), ?_⟩
      exact splitTermGo_lasts (c :: cs).length (c :: cs) le_rfl false hedges.2 (c :: q)
        (by rw [hsp]; exact List.mem_cons_self _ _) hpne
    · refine ⟨?_, ?_⟩
      · refine (splitTermGo_heads (c :: cs).length (c :: cs) le_rfl).1 p ?_ hpne
        rw [hsp, List.tail_cons]
        exact hp'
      · exact splitTermGo_lasts (c :: cs).length (c :: cs) le_rfl false hedges.2 p
          (by rw [hsp]; exact List.mem_cons_of_mem _ hp') hpne

/-- C7: for a text with more than `k` sentences, `summarize_general`
returns the first `k` normalised sentences joined by single spaces, and —
when that output's own sentence count is at most `k` — summarising the
output again with the same `k` returns it unchanged (idempotence). -/
theorem claim_C7 (t : Str) (k : Nat) (hk : k < (split_sentences t).length) :
    summarize_general t k = joinSep [' '] ((split_sentences t).take k) ∧
    ((split_sentences (summarize_general t k)).length ≤ k →
      summarize_general (summarize_general t k) k = summarize_general t k) := by
  have h1 : summarize_general t k = joinSep [' '] ((split_sentences t).take k) := by
    simp [summarize_general, Nat.not_le.mpr hk]
  refine ⟨h1, fun h2 => ?_⟩
  have hedge := joinSep_edges ((split_sentences t).take k)
    (fun p hp => (sentences_edges t p (List.mem_of_mem_take hp)).1)
    (fun p hp => (sentences_edges t p (List.mem_of_mem_take hp)).2.1)
    (fun p hp => (sentences_edges t p (List.mem_of_mem_take hp)).2.2)
  rw [h1] at h2 ⊢
  rw [show summarize_general (joinSep [' '] ((split_sentences t).take k)) k =
      pyStrip (joinSep [' '] ((split_sentences t).take k)) from by
    simp [summarize_general, h2]]
  exact pyStrip_eq_self _ hedge.1 hedge.2

/-- Witness for C7 on a concrete four-sentence text with `k = 2`. -/
theorem claim_C7_witness :
    summarize_general (ofStr "A. B. C. D.") 2 =
      joinSep [' '] ((split_sentences (ofStr "A. B. C. D.")).take 2) ∧
    summarize_general (summarize_general (ofStr "A. B. C. D.") 2) 2 =
      summarize_general (ofStr "A. B. C. D.") 2 := by
  have h := claim_C7 (ofStr "A. B. C. D.") 2 (by decide)
  exact ⟨h.1, h.2 (by decide)⟩

end AppDevSignal
